import Mathlib

/-!
Shallow embedding of the retrieval core of the repository:
`src/vector_store.py` (`SimpleLRUCache`, `VectorStore`) and
`src/pdf_processor.py` (`extract_text_from_pdf`, `chunk_text`).

Modelling choices, stated once here:
* Python floats (similarity scores, vector components) are modelled as
  integers: the code only compares, stores and copies scores — it never
  does arithmetic on them beyond the inner product — so any ordered
  commutative ring is a faithful carrier, and `ℤ` keeps every definition
  kernel-computable.  The numeric part of the pipeline that cannot be
  represented exactly — `SentenceTransformer.encode` followed by
  `astype('float32')` and the store's `_normalize` (an L2 division using a
  float square root) — is folded into one opaque per-text encoding
  function `encode`, exactly as the spec treats the embedding provider as
  an external collaborator.  Similarity of the stored vectors with the
  encoded query is the inner product, as in `faiss.IndexFlatIP`.
* `faiss.IndexFlatIP.search` is an exact scan over the added vectors; it is
  modelled as scoring every stored vector, sorting by decreasing inner
  product with ties in insertion order (a stable exact top-k), and taking
  the first `k` entries.
* A chunk dictionary is modelled as a structure whose `Option` fields model
  the presence or absence of the corresponding dict key.
* The SHA-256 hex digest used for the cache key serves only as an injective
  key for the query string, so it is modelled by the query string itself.
* Python strings are Lean `String`s, manipulated through their character
  lists so that every operation is structurally recursive.
-/

/-- Similarity scores and vector components: Python floats modelled in an
exact ordered ring. -/
abbrev Score := ℤ

/-- An embedding vector. -/
abbrev Vec := List ℤ

/-- Inner product of two vectors, the similarity returned by the
inner-product FAISS index on the (externally normalised) vectors. -/
def dot (a b : Vec) : Score := (List.zipWith (· * ·) a b).sum

/-- A chunk dictionary as used by `vector_store.py` and produced by
`pdf_processor.chunk_text`: keys `'text'`, `'page'`, `'start_pos'`,
`'end_pos'`, `'tokens'`, plus the `'document'` / `'doc'` keys read and
written by `create_from_chunks`.  An `Option` field models presence of the
key. -/
structure Chunk where
  text : String := ""
  page : Option Int := none
  document : Option String := none
  doc : Option String := none
  start_pos : Option Int := none
  end_pos : Option Int := none
  tokens : Option Nat := none
  deriving DecidableEq

/-- Python `s[:m]` on a string: the first `m` characters. -/
def pyTake (s : String) (m : Nat) : String := String.mk (s.data.take m)

/-- `SimpleLRUCache` from `vector_store.py`.  The `OrderedDict` is an
association list ordered from least- to most-recently used. -/
structure SimpleLRUCache where
  capacity : Nat := 128
  data : List ((String × Nat) × List (Chunk × Score)) := []
  deriving DecidableEq

/-- Key lookup in the ordered-dict association list. -/
def cacheLookup : List ((String × Nat) × List (Chunk × Score)) → (String × Nat) →
    Option (List (Chunk × Score))
  | [], _ => none
  | e :: es, k => if e.1 = k then some e.2 else cacheLookup es k

/-- Removal of a key from the ordered-dict association list. -/
def cacheErase : List ((String × Nat) × List (Chunk × Score)) → (String × Nat) →
    List ((String × Nat) × List (Chunk × Score))
  | [], _ => []
  | e :: es, k => if e.1 = k then cacheErase es k else e :: cacheErase es k

/-- `SimpleLRUCache.get`: on a hit, `move_to_end` the key and return its
value together with the updated cache; on a miss return `none`. -/
def SimpleLRUCache.get (c : SimpleLRUCache) (k : String × Nat) :
    Option (List (Chunk × Score)) × SimpleLRUCache :=
  match cacheLookup c.data k with
  | some v => (some v, { c with data := cacheErase c.data k ++ [(k, v)] })
  | none => (none, c)

/-- `SimpleLRUCache.set`: write the key's value, `move_to_end` the key, and
pop the least-recently-used entry if the capacity is now exceeded. -/
def SimpleLRUCache.set (c : SimpleLRUCache) (k : String × Nat)
    (v : List (Chunk × Score)) : SimpleLRUCache :=
  let d := cacheErase c.data k ++ [(k, v)]
  if c.capacity < d.length then { c with data := d.tail } else { c with data := d }

/-- The mutable state of a `VectorStore`: whether `self.index` is not
`None`, the chunk list, the vectors added to the FAISS index
(`self.embeddings`), and the query cache.  The sentence-transformer model
is an opaque encoding function passed to each operation. -/
structure VectorStore where
  indexBuilt : Bool
  chunks : List Chunk
  embeddings : List Vec
  cache : SimpleLRUCache
  deriving DecidableEq

/-- `VectorStore.__init__`: no index, no chunks, empty cache of capacity 256. -/
def VectorStore.init : VectorStore :=
  { indexBuilt := false, chunks := [], embeddings := [],
    cache := { capacity := 256, data := [] } }

/-- The in-place fix-up at the top of `create_from_chunks`: a chunk without
a `'document'` key receives one, copied from `'doc'` when that key is
present and `"Unknown"` otherwise; every other field is untouched. -/
def ensureDocument (c : Chunk) : Chunk :=
  match c.document with
  | some _ => c
  | none => { c with document := some (c.doc.getD "Unknown") }

/-- `VectorStore.create_from_chunks`: fix up the documents in place, store
the chunk list, embed every chunk text (one vector per text), and build a
fresh inner-product index over those vectors.  The query cache is carried
over unchanged — the source never clears it here. -/
def VectorStore.create_from_chunks (encode : String → Vec) (s : VectorStore)
    (chunks : List Chunk) : VectorStore :=
  let fixed := chunks.map ensureDocument
  { s with chunks := fixed,
           embeddings := (fixed.map Chunk.text).map encode,
           indexBuilt := true }

/-- Every stored vector scored against the query, tagged with its insertion
index, starting from index `i`. -/
def scoreAll (q : Vec) : List Vec → Nat → List (Nat × Score)
  | [], _ => []
  | e :: es, i => (i, dot q e) :: scoreAll q es (i + 1)

/-- Result order of the exact inner-product scan: larger score first, equal
scores in insertion order. -/
def resBefore (a b : Nat × Score) : Prop := b.2 < a.2 ∨ (a.2 = b.2 ∧ a.1 ≤ b.1)

instance : DecidableRel resBefore := fun a b => by
  unfold resBefore; infer_instance

/-- Model of `faiss.IndexFlatIP.search` over the added vectors: the exact
top-`k` hits as `(insertion index, inner product)` pairs, sorted by
decreasing score with ties in insertion order. -/
def faissSearch (embs : List Vec) (q : Vec) (k : Nat) : List (Nat × Score) :=
  (List.insertionSort resBefore (scoreAll q embs 0)).take k

/-- The cache-miss path of `VectorStore.search`: encode the query, run the
index scan with `k` clamped to the chunk count, and keep every hit whose id
is a valid position in `self.chunks`. -/
def VectorStore.computeResults (encode : String → Vec) (s : VectorStore)
    (q : String) (k : Nat) : List (Chunk × Score) :=
  (faissSearch s.embeddings (encode q) (min k s.chunks.length)).filterMap
    fun p => (s.chunks.get? p.1).map fun c => (c, p.2)

/-- `VectorStore.search`: an unbuilt or chunk-less store answers `[]`
before touching the cache; otherwise the cache is consulted (`get` already
promoted the key) and, because `if cached:` is a truthiness test, only a
non-empty cached list is returned directly; otherwise the results are
computed and written back.  Returns the results and the updated store. -/
def VectorStore.search (encode : String → Vec) (s : VectorStore) (q : String)
    (k : Nat) : List (Chunk × Score) × VectorStore :=
  if s.indexBuilt = false ∨ s.chunks = [] then ([], s)
  else
    let hit := s.cache.get (q, k)
    match hit.1 with
    | some v =>
      if v ≠ [] then (v, { s with cache := hit.2 })
      else
        let r := VectorStore.computeResults encode s q k
        (r, { s with cache := hit.2.set (q, k) r })
    | none =>
      let r := VectorStore.computeResults encode s q k
      (r, { s with cache := hit.2.set (q, k) r })

/-- A `sources` entry of `get_context_for_query`. -/
structure SourceCitation where
  document : String
  page : Option Int
  text : String
  relevance_score : Score
  deriving DecidableEq

/-- The citation built for one result: `document` defaulting to
`"Unknown"`, the page as stored, the original chunk text capped at 800
characters, and the similarity score unchanged. -/
def citationOf (c : Chunk) (score : Score) : SourceCitation :=
  { document := c.document.getD "Unknown",
    page := c.page,
    text := pyTake c.text 800,
    relevance_score := score }

/-- The `f"[{document} - Page {page}]\n"` prefix of one context part, with
the dict defaults `'doc'` and `'?'`. -/
def contextLabel (c : Chunk) : String :=
  "[" ++ c.document.getD "doc" ++ " - Page " ++
    (match c.page with | some p => toString p | none => "?") ++ "]\n"

/-- The `add_txt` computed for one result inside the loop of
`get_context_for_query`: the chunk text, or — when adding it whole would
cross the budget — its first `max(0, remaining)` characters with `"..."`
appended only when `remaining > 3`. -/
def addTxtOf (c : Chunk) (maxLen curLen : Nat) : String :=
  let txt := c.text
  let remaining : Int := (maxLen : Int) - (curLen : Int)
  if maxLen < curLen + txt.length then
    pyTake txt (max 0 remaining).toNat ++ (if 3 < remaining then "..." else "")
  else txt

/-- The accumulation loop of `get_context_for_query` over the ranked
results with budget `maxLen`, entered with running length `curLen`
(`cur_len`, which counts only the chunk-text portions, not labels or
separators); the loop breaks once `cur_len` reaches the budget.  Returns
the context parts, the parallel citations, and the final `cur_len`. -/
def assembleContext : List (Chunk × Score) → Nat → Nat →
    List String × List SourceCitation × Nat
  | [], _, curLen => ([], [], curLen)
  | (c, score) :: rest, maxLen, curLen =>
    let addTxt := addTxtOf c maxLen curLen
    let newLen := curLen + addTxt.length
    let part := contextLabel c ++ addTxt
    let src := citationOf c score
    if maxLen ≤ newLen then ([part], [src], newLen)
    else
      let out := assembleContext rest maxLen newLen
      (part :: out.1, src :: out.2.1, out.2.2)

/-- `VectorStore.get_context_for_query`: search, return `("", [])` on an
empty result list, and otherwise join the assembled parts with the fixed
separator. -/
def VectorStore.get_context_for_query (encode : String → Vec) (s : VectorStore)
    (q : String) (k : Nat := 3) (maxLen : Nat := 3000) :
    (String × List SourceCitation) × VectorStore :=
  let res := VectorStore.search encode s q k
  if res.1 = [] then (("", []), res.2)
  else
    let out := assembleContext res.1 maxLen 0
    ((String.intercalate "\n\n---\n\n" out.1, out.2.1), res.2)

/-! ## `pdf_processor.py` -/

/-- Python slice `s[a:b]` on a character list, with the clamping rules of
slice semantics (a negative bound counts from the end). -/
def pySlice (cs : List Char) (a b : Int) : List Char :=
  let n : Int := cs.length
  let a2 := if a < 0 then max 0 (n + a) else min a n
  let b2 := if b < 0 then max 0 (n + b) else min b n
  (cs.take b2.toNat).drop a2.toNat

/-- Python `str.strip()` on a character list. -/
def stripChars (cs : List Char) : List Char :=
  ((cs.dropWhile Char.isWhitespace).reverse.dropWhile Char.isWhitespace).reverse

/-- The page map of `extract_text_from_pdf`: an association list from
character offset in the flattened text to 1-based page number. -/
abbrev PageMap := List (Nat × Nat)

/-- Dict lookup in the page map, with an `Int` offset as produced by the
midpoint computation of `chunk_text`. -/
def pmLookup : PageMap → Int → Option Nat
  | [], _ => none
  | e :: es, k => if (e.1 : Int) = k then some e.2 else pmLookup es k

/-- `page_mapping.get(off, d)`. -/
def pmGet (pm : PageMap) (off : Int) (d : Nat) : Nat := (pmLookup pm off).getD d

/-- The loop of `extract_text_from_pdf`, abstracted over the per-page texts
that the external PDF library returns (`page.get_text()`; the OCR fallback
guarded by optional dependencies is the identity path modelled here, since
it only replaces an empty page text by another page text).  `pos` is
`current_pos` and `pnum` the 1-based page number.  Each page contributes
its stripped text followed by the `"\n\n"` separator, and one map entry
per character of the stripped text — the separator offsets get none. -/
def extractAux : List String → Nat → Nat → String × PageMap
  | [], _, _ => ("", [])
  | p :: ps, pos, pnum =>
    let t := String.mk (stripChars p.data)
    let entries := (List.range t.length).map fun i => (pos + i, pnum)
    let rest := extractAux ps (pos + t.length + 2) (pnum + 1)
    (t ++ "\n\n" ++ rest.1, entries ++ rest.2)

/-- `extract_text_from_pdf` as a function of the page texts of the opened
document: the flattened text and the offset-to-page map. -/
def extract_text_from_pdf (pages : List String) : String × PageMap :=
  extractAux pages 0 1

/-- Specification-side characterisation of the page map's content, named
for the amended page-map claim: an offset is mapped exactly when it is a
character offset of some (stripped) page, in which case it carries that
page's 1-based number; every other offset — in particular every inter-page
separator offset, inner ones included — is absent. -/
def pageOfOffset : List String → Nat → Nat → Int → Option Nat
  | [], _, _, _ => none
  | p :: ps, pos, pnum, key =>
    let tl := (String.mk (stripChars p.data)).length
    if (pos : Int) ≤ key ∧ key < (pos : Int) + tl then some pnum
    else pageOfOffset ps (pos + tl + 2) (pnum + 1) key

/-- `int(chunk_size * 0.4)`.  The Python expression multiplies by the
double closest to 0.4, which exceeds 2/5 by under one unit in the last
place, so for every chunk size below 10^13 the truncated result equals
`2 * S / 5` in integer arithmetic. -/
def intOfChunkFrac (S : Nat) : Nat := 2 * S / 5

/-- The sentence-terminal characters of the `([.!?]\s+)` pattern. -/
def isSentEnd (c : Char) : Bool := c == '.' || c == '!' || c == '?'

/-- End offset of the last `re.finditer` match of `([.!?]\s+)` in `cs`,
where `i` is the offset of the head of `cs` and `acc` the best match end
so far.  A match is a sentence-terminal character directly followed by a
non-empty whitespace run, taken greedily; since a match can only begin at
a terminal character and the consumed run contains none, scanning every
position finds exactly the non-overlapping matches of `finditer`, and the
accumulator ends up holding the end of the last one. -/
def lastBoundaryEnd : List Char → Nat → Option Nat → Option Nat
  | [], _, acc => acc
  | [_], _, acc => acc
  | c :: c2 :: cs, i, acc =>
    if isSentEnd c && c2.isWhitespace then
      lastBoundaryEnd (c2 :: cs) (i + 1)
        (some (i + 2 + (cs.takeWhile Char.isWhitespace).length))
    else lastBoundaryEnd (c2 :: cs) (i + 1) acc

/-- The `end` offset computed by one iteration of the `chunk_text` loop
from `start`: the raw `start + chunk_size`, possibly snapped to the end of
the last sentence boundary found in `text[max(start, end-120) : end+1]`,
but only when the snapped chunk keeps more than `int(chunk_size * 0.4)`
characters; past the end of the text the chunk runs to `len(text)`. -/
def chunkIterEnd (cs : List Char) (S : Nat) (start : Int) : Int :=
  let n : Int := cs.length
  let end0 := start + S
  if end0 < n then
    let searchStart := max start (end0 - 120)
    let snippet := pySlice cs searchStart (end0 + 1)
    match lastBoundaryEnd snippet 0 none with
    | some e =>
      let newEnd := searchStart + e
      if (intOfChunkFrac S : Int) < newEnd - start then newEnd else end0
    | none => end0
  else n

/-- `len(chunk_txt.split())`: the number of maximal non-whitespace runs,
tracked with an in-word flag so the recursion stays structural. -/
def countTokensAux : List Char → Bool → Nat
  | [], _ => 0
  | c :: cs, inWord =>
    if c.isWhitespace then countTokensAux cs false
    else (if inWord then 0 else 1) + countTokensAux cs true

/-- `len(chunk_txt.split())`. -/
def countTokens (cs : List Char) : Nat := countTokensAux cs false

/-- The chunk record emitted by one `chunk_text` iteration for the span
`[start, e)`, or `none` when the stripped text is empty.  The page is the
map entry at the span midpoint, defaulting to 1. -/
def emitChunk (cs : List Char) (pm : PageMap) (start e : Int) : Option Chunk :=
  let trimmed := stripChars (pySlice cs start e)
  if trimmed = [] then none
  else
    some { text := String.mk trimmed,
           page := some ((pmGet pm (start + (e - start).fdiv 2) 1 : Nat) : Int),
           start_pos := some start,
           end_pos := some e,
           tokens := some (countTokens trimmed) }

/-- The next `start` of the `chunk_text` loop (`end - overlap`), or `none`
when the loop breaks because the chunk reached the end of the text. -/
def chunkNextStart (cs : List Char) (S O : Nat) (start : Int) : Option Int :=
  let e := chunkIterEnd cs S start
  if (cs.length : Int) ≤ e then none else some (e - O)

/-- The `(start, end)` spans visited by the first `fuel` iterations of the
`chunk_text` loop.  The source loop has no iteration bound of its own; a
run that exhausts the fuel is one the source would still be iterating. -/
def chunkSpans (cs : List Char) (S O : Nat) : Nat → Int → List (Int × Int)
  | 0, _ => []
  | fuel + 1, start =>
    if start < (cs.length : Int) then
      let e := chunkIterEnd cs S start
      (start, e) ::
        (if (cs.length : Int) ≤ e then [] else chunkSpans cs S O fuel (e - O))
    else []

/-- The chunks produced by the first `fuel` iterations of the `chunk_text`
loop. -/
def chunkTextAux (cs : List Char) (pm : PageMap) (S O : Nat) :
    Nat → Int → List Chunk
  | 0, _ => []
  | fuel + 1, start =>
    if start < (cs.length : Int) then
      let e := chunkIterEnd cs S start
      (match emitChunk cs pm start e with | some c => [c] | none => []) ++
        (if (cs.length : Int) ≤ e then [] else chunkTextAux cs pm S O fuel (e - O))
    else []

/-- `chunk_text(text, page_mapping, chunk_size, overlap)`.  The fuel
`len(text) + 1` covers every run that advances `start` each iteration;
configurations on which the source loop never terminates (see the
no-progress result below) are truncated at the fuel bound. -/
def chunk_text (text : String) (pm : PageMap) (S : Nat := 1000)
    (O : Nat := 200) : List Chunk :=
  chunkTextAux text.data pm S O (text.length + 1) 0

/-- Flattened-text span overlap of two chunks, for stating the overlap
claim. -/
def spanOverlap (a b : Chunk) : Int :=
  max 0 (min (a.end_pos.getD 0) (b.end_pos.getD 0) -
    max (a.start_pos.getD 0) (b.start_pos.getD 0))

/-! ## Concrete fixtures used by counterexamples and witnesses -/

/-- A fixed encoder for concrete runs: every text maps to the vector `[1]`. -/
def encodeConst : String → Vec := fun _ => [1]

/-- A one-character chunk on page 1. -/
def chunkA : Chunk := { text := "A", page := some 1 }

/-- A one-character chunk on page 2. -/
def chunkB : Chunk := { text := "B", page := some 2 }

/-- A one-character chunk on page 3. -/
def chunkC : Chunk := { text := "C", page := some 3 }

/-- A chunk whose text is longer than the small budgets used below. -/
def chunkLong : Chunk := { text := "abcdefgh" }

/-- Text on which the `chunk_text` loop never advances for
`chunk_size = 10`, `overlap = 8`. -/
def loopText : String := "ab. cd. ef. gh. ij. kl."

/-- Letters separated by a whitespace run longer than the chunk size 5, so
chunking with overlap 2 drops a pure-whitespace candidate chunk. -/
def wsText : String := "abcde       vwxyz"

/-- Store built over the single long chunk with the constant encoder. -/
def storeLong : VectorStore :=
  VectorStore.create_from_chunks encodeConst VectorStore.init [chunkLong]

/-- Store built over `[chunkA]` with the constant encoder. -/
def storeA : VectorStore :=
  VectorStore.create_from_chunks encodeConst VectorStore.init [chunkA]

/-- `storeA` after one search for `("q", 1)`, which caches its result. -/
def storeA2 : VectorStore := (VectorStore.search encodeConst storeA "q" 1).2

/-- `storeA2` rebuilt over `[chunkB]`; the cache survives the rebuild. -/
def storeB : VectorStore :=
  VectorStore.create_from_chunks encodeConst storeA2 [chunkB]

/-- Store built over two chunks with the constant encoder. -/
def storeAB : VectorStore :=
  VectorStore.create_from_chunks encodeConst VectorStore.init [chunkA, chunkB]

/-- `storeAB` after one search for `("q", 2)`, which caches two results. -/
def storeAB2 : VectorStore := (VectorStore.search encodeConst storeAB "q" 2).2

/-- `storeAB2` rebuilt over the single chunk `[chunkC]`. -/
def storeC : VectorStore :=
  VectorStore.create_from_chunks encodeConst storeAB2 [chunkC]

/-! ## Cache lemmas -/

theorem cacheLookup_erase_self (d : List ((String × Nat) × List (Chunk × Score)))
    (k : String × Nat) : cacheLookup (cacheErase d k) k = none := by
  induction d with
  | nil => rfl
  | cons e es ih =>
    by_cases h : e.1 = k
    · simp only [cacheErase, if_pos h]; exact ih
    · simp only [cacheErase, if_neg h, cacheLookup, ih]

theorem cacheLookup_append_right (d e : List ((String × Nat) × List (Chunk × Score)))
    (k : String × Nat) (hd : cacheLookup d k = none) :
    cacheLookup (d ++ e) k = cacheLookup e k := by
  induction d with
  | nil => rfl
  | cons x xs ih =>
    by_cases h : x.1 = k
    · simp only [cacheLookup, if_pos h] at hd
      exact Option.noConfusion hd
    · simp only [cacheLookup, if_neg h] at hd
      simpa only [List.cons_append, cacheLookup, if_neg h] using ih hd

theorem cacheLookup_snoc_self (d : List ((String × Nat) × List (Chunk × Score)))
    (k : String × Nat) (v : List (Chunk × Score)) (hd : cacheLookup d k = none) :
    cacheLookup (d ++ [(k, v)]) k = some v := by
  rw [cacheLookup_append_right d _ k hd]; simp [cacheLookup]

theorem lru_set_capacity (c : SimpleLRUCache) (k : String × Nat)
    (v : List (Chunk × Score)) : (c.set k v).capacity = c.capacity := by
  simp only [SimpleLRUCache.set]
  split <;> rfl

theorem lru_get_capacity (c : SimpleLRUCache) (k : String × Nat) :
    ((c.get k).2).capacity = c.capacity := by
  unfold SimpleLRUCache.get
  split <;> rfl

theorem lru_get_after_set (c : SimpleLRUCache) (k : String × Nat)
    (v : List (Chunk × Score)) (hcap : 1 ≤ c.capacity) :
    ((c.set k v).get k).1 = some v := by
  simp only [SimpleLRUCache.set, SimpleLRUCache.get]
  by_cases h : c.capacity < (cacheErase c.data k ++ [(k, v)]).length
  · simp only [if_pos h]
    rcases he : cacheErase c.data k with _ | ⟨x, xs⟩
    · rw [he] at h; simp at h; omega
    · have hx : cacheLookup (x :: xs) k = none := by
        rw [← he]; exact cacheLookup_erase_self c.data k
      have hxs : cacheLookup xs k = none := by
        by_cases hxk : x.1 = k
        · simp only [cacheLookup, if_pos hxk] at hx
          exact Option.noConfusion hx
        · simpa only [cacheLookup, if_neg hxk] using hx
      simp only [List.cons_append, List.tail_cons]
      rw [cacheLookup_snoc_self xs k v hxs]
  · simp only [if_neg h]
    rw [cacheLookup_snoc_self _ _ _ (cacheLookup_erase_self c.data k)]

theorem lru_get_stable (c : SimpleLRUCache) (k : String × Nat)
    (v : List (Chunk × Score)) (h : (c.get k).1 = some v) :
    (((c.get k).2).get k).1 = some v := by
  unfold SimpleLRUCache.get at h ⊢
  rcases hl : cacheLookup c.data k with _ | w
  · rw [hl] at h; exact absurd h (by simp)
  · rw [hl] at h
    simp only at h
    cases h
    simp only
    rw [cacheLookup_snoc_self _ _ _ (cacheLookup_erase_self c.data k)]

/-! ## Search characterisation lemmas -/

theorem search_eq_of_guard (encode : String → Vec) (s : VectorStore) (q : String)
    (k : Nat) (hg : s.indexBuilt = false ∨ s.chunks = []) :
    VectorStore.search encode s q k = ([], s) := by
  simp only [VectorStore.search, if_pos hg]

theorem search_eq_of_hit (encode : String → Vec) (s : VectorStore) (q : String)
    (k : Nat) (v : List (Chunk × Score))
    (hg : ¬(s.indexBuilt = false ∨ s.chunks = []))
    (hm : (s.cache.get (q, k)).1 = some v) (hv : v ≠ []) :
    VectorStore.search encode s q k = (v, { s with cache := (s.cache.get (q, k)).2 }) := by
  simp only [VectorStore.search, if_neg hg]
  rw [hm]
  simp only [if_pos hv]

theorem search_eq_of_miss (encode : String → Vec) (s : VectorStore) (q : String)
    (k : Nat) (hg : ¬(s.indexBuilt = false ∨ s.chunks = []))
    (hm : (s.cache.get (q, k)).1 = none ∨ (s.cache.get (q, k)).1 = some []) :
    VectorStore.search encode s q k =
      (VectorStore.computeResults encode s q k,
       { s with cache := ((s.cache.get (q, k)).2).set (q, k)
                  (VectorStore.computeResults encode s q k) }) := by
  simp only [VectorStore.search, if_neg hg]
  rcases hm with hm | hm
  · rw [hm]
  · rw [hm]
    simp

theorem search_state_fields (encode : String → Vec) (s : VectorStore) (q : String)
    (k : Nat) :
    (VectorStore.search encode s q k).2.indexBuilt = s.indexBuilt ∧
    (VectorStore.search encode s q k).2.chunks = s.chunks ∧
    (VectorStore.search encode s q k).2.embeddings = s.embeddings ∧
    (VectorStore.search encode s q k).2.cache.capacity = s.cache.capacity := by
  by_cases hg : s.indexBuilt = false ∨ s.chunks = []
  · rw [search_eq_of_guard encode s q k hg]
    exact ⟨rfl, rfl, rfl, rfl⟩
  · rcases hm : (s.cache.get (q, k)).1 with _ | v
    · rw [search_eq_of_miss encode s q k hg (Or.inl hm)]
      refine ⟨rfl, rfl, rfl, ?_⟩
      rw [lru_set_capacity, lru_get_capacity]
    · by_cases hv : v = []
      · rw [hv] at hm
        rw [search_eq_of_miss encode s q k hg (Or.inr hm)]
        refine ⟨rfl, rfl, rfl, ?_⟩
        rw [lru_set_capacity, lru_get_capacity]
      · rw [search_eq_of_hit encode s q k v hg hm hv]
        exact ⟨rfl, rfl, rfl, lru_get_capacity s.cache (q, k)⟩

theorem computeResults_congr (encode : String → Vec) (s t : VectorStore)
    (q : String) (k : Nat) (hc : t.chunks = s.chunks)
    (he : t.embeddings = s.embeddings) :
    VectorStore.computeResults encode t q k = VectorStore.computeResults encode s q k := by
  unfold VectorStore.computeResults
  rw [hc, he]

/-! ## Claim C2 -/

/-- C2 (amended): the cache is transparent for repeated queries — calling
`search(q, k)` twice in a row on an unchanged index returns identical
result lists — but `create_from_chunks` does not invalidate the cache: a
rebuild leaves every cached entry of the instance in place (only the
separate `clear` helper would reset it), so a search after a rebuild can
be answered by a result list cached before it. -/
theorem claim_C2_cache_transparency (encode : String → Vec) (s : VectorStore)
    (q : String) (k : Nat) (cs : List Chunk) (hcap : 1 ≤ s.cache.capacity) :
    (VectorStore.search encode (VectorStore.search encode s q k).2 q k).1
      = (VectorStore.search encode s q k).1
    ∧ (VectorStore.create_from_chunks encode s cs).cache = s.cache := by
  refine ⟨?_, rfl⟩
  by_cases hg : s.indexBuilt = false ∨ s.chunks = []
  · have h := search_eq_of_guard encode s q k hg
    have h3 : (VectorStore.search encode s q k).2 = s := by rw [h]
    rw [h3]
  · have hf := search_state_fields encode s q k
    have hg1 : ¬((VectorStore.search encode s q k).2.indexBuilt = false
        ∨ (VectorStore.search encode s q k).2.chunks = []) := by
      rw [hf.1, hf.2.1]; exact hg
    by_cases hcase : ∃ v, (s.cache.get (q, k)).1 = some v ∧ v ≠ []
    · rcases hcase with ⟨v, hm, hv⟩
      have h1 := search_eq_of_hit encode s q k v hg hm hv
      have hhit2 : ((VectorStore.search encode s q k).2.cache.get (q, k)).1 = some v := by
        rw [h1]
        exact lru_get_stable s.cache (q, k) v hm
      have h2 := search_eq_of_hit encode _ q k v hg1 hhit2 hv
      exact (congrArg Prod.fst h2).trans (congrArg Prod.fst h1).symm
    · have hm : (s.cache.get (q, k)).1 = none ∨ (s.cache.get (q, k)).1 = some [] := by
        rcases h : (s.cache.get (q, k)).1 with _ | v
        · exact Or.inl rfl
        · refine Or.inr ?_
          by_cases hv : v = []
          · rw [hv]
          · exact absurd ⟨v, h, hv⟩ hcase
      have h1 := search_eq_of_miss encode s q k hg hm
      have hcap2 : 1 ≤ ((s.cache.get (q, k)).2).capacity := by
        rw [lru_get_capacity]; exact hcap
      have hhit : ((VectorStore.search encode s q k).2.cache.get (q, k)).1
          = some (VectorStore.computeResults encode s q k) := by
        rw [h1]
        exact lru_get_after_set _ _ _ hcap2
      by_cases hrnil : VectorStore.computeResults encode s q k = []
      · have h2 := search_eq_of_miss encode (VectorStore.search encode s q k).2 q k hg1
          (Or.inr (by rw [hhit, hrnil]))
        exact ((congrArg Prod.fst h2).trans
          (computeResults_congr encode s _ q k hf.2.1 hf.2.2.1)).trans
          (congrArg Prod.fst h1).symm
      · have h2 := search_eq_of_hit encode _ q k
          (VectorStore.computeResults encode s q k) hg1 hhit hrnil
        exact (congrArg Prod.fst h2).trans (congrArg Prod.fst h1).symm

/-- C2 counterexample: after building over `[chunkA]`, searching once, and
rebuilding over `[chunkB]`, the same search is answered from the cache with
the pre-rebuild result list, whose chunk is no longer among the indexed
chunks — the claimed invalidation on rebuild does not happen. -/
theorem claim_C2_counterexample :
    (VectorStore.search encodeConst storeB "q" 1).1 = [(ensureDocument chunkA, 1)]
    ∧ storeB.chunks = [ensureDocument chunkB]
    ∧ ensureDocument chunkA ∉ storeB.chunks := by decide

/-- C2 witness: the amended theorem applied to the concrete store built
over `[chunkA]`. -/
theorem claim_C2_witness :
    1 ≤ storeA.cache.capacity
    ∧ (VectorStore.search encodeConst (VectorStore.search encodeConst storeA "q" 1).2 "q" 1).1
        = (VectorStore.search encodeConst storeA "q" 1).1 :=
  ⟨by decide, (claim_C2_cache_transparency encodeConst storeA "q" 1 [] (by decide)).1⟩

/-! ## Sorting lemmas for the exact scan -/

instance : IsTotal (Nat × Score) resBefore := ⟨by
  intro a b
  unfold resBefore
  rcases lt_trichotomy a.2 b.2 with h | h | h
  · exact Or.inr (Or.inl h)
  · rcases Nat.le_total a.1 b.1 with hi | hi
    · exact Or.inl (Or.inr ⟨h, hi⟩)
    · exact Or.inr (Or.inr ⟨h.symm, hi⟩)
  · exact Or.inl (Or.inl h)⟩

instance : IsTrans (Nat × Score) resBefore := ⟨by
  intro a b c hab hbc
  unfold resBefore at *
  rcases hab with h1 | ⟨h1, h1i⟩ <;> rcases hbc with h2 | ⟨h2, h2i⟩
  · exact Or.inl (h2.trans h1)
  · exact Or.inl (by rw [← h2]; exact h1)
  · exact Or.inl (by rw [h1]; exact h2)
  · exact Or.inr ⟨h1.trans h2, h1i.trans h2i⟩⟩

theorem scoreAll_fst_ge (q : Vec) : ∀ (es : List Vec) (i : Nat) (x : Nat × Score),
    x ∈ scoreAll q es i → i ≤ x.1 := by
  intro es
  induction es with
  | nil => intro i x hx; exact absurd hx (by simp [scoreAll])
  | cons e es ih =>
    intro i x hx
    rcases (by simpa [scoreAll] using hx :
        x = (i, dot q e) ∨ x ∈ scoreAll q es (i + 1)) with h | h
    · subst h; exact Nat.le_refl i
    · exact Nat.le_of_succ_le (ih (i + 1) x h)

theorem scoreAll_pairwise_ne (q : Vec) : ∀ (es : List Vec) (i : Nat),
    (scoreAll q es i).Pairwise (fun a b => a.1 ≠ b.1) := by
  intro es
  induction es with
  | nil => intro i; simp [scoreAll]
  | cons e es ih =>
    intro i
    simp only [scoreAll]
    refine List.Pairwise.cons ?_ (ih (i + 1))
    intro x hx
    have := scoreAll_fst_ge q es (i + 1) x hx
    simp only
    omega

theorem faissSearch_sorted (embs : List Vec) (q : Vec) (k : Nat) :
    (faissSearch embs q k).Pairwise
      (fun a b => b.2 < a.2 ∨ (a.2 = b.2 ∧ a.1 < b.1)) := by
  have hsorted : (List.insertionSort resBefore (scoreAll q embs 0)).Pairwise resBefore :=
    List.sorted_insertionSort resBefore (scoreAll q embs 0)
  have hperm := List.perm_insertionSort resBefore (scoreAll q embs 0)
  have hne : (List.insertionSort resBefore (scoreAll q embs 0)).Pairwise
      (fun a b : Nat × Score => a.1 ≠ b.1) :=
    (hperm.pairwise_iff (fun hxy => Ne.symm hxy)).mpr (scoreAll_pairwise_ne q embs 0)
  have hj : ∀ {a b : Nat × Score}, (resBefore a b ∧ a.1 ≠ b.1) →
      (b.2 < a.2 ∨ (a.2 = b.2 ∧ a.1 < b.1)) := by
    intro a b h
    rcases h.1 with h1 | ⟨h1, h2⟩
    · exact Or.inl h1
    · exact Or.inr ⟨h1, Nat.lt_of_le_of_ne h2 h.2⟩
  exact List.Pairwise.sublist (List.take_sublist k _) ((hsorted.and hne).imp hj)

theorem pairwise_filterMap_imp {α β : Type} (f : α → Option β) {R : α → α → Prop}
    {S : β → β → Prop} (H : ∀ a b x y, R a b → f a = some x → f b = some y → S x y) :
    ∀ {l : List α}, l.Pairwise R → (l.filterMap f).Pairwise S := by
  intro l hl
  induction hl with
  | nil => simp
  | @cons a l ha hl ih =>
    rw [List.filterMap_cons]
    rcases hfa : f a with _ | b
    · exact ih
    · refine List.Pairwise.cons ?_ ih
      intro y hy
      rcases List.mem_filterMap.mp hy with ⟨x, hx, hfx⟩
      exact H a x b y (ha x hx) hfa hfx

theorem computeResults_length_le (encode : String → Vec) (s : VectorStore)
    (q : String) (k : Nat) :
    (VectorStore.computeResults encode s q k).length ≤ min k s.chunks.length := by
  unfold VectorStore.computeResults
  refine le_trans (List.length_filterMap_le _ _) ?_
  unfold faissSearch
  exact List.length_take_le _ _

theorem computeResults_sorted (encode : String → Vec) (s : VectorStore)
    (q : String) (k : Nat) :
    (VectorStore.computeResults encode s q k).Pairwise
      (fun a b => b.2 ≤ a.2) := by
  unfold VectorStore.computeResults
  refine pairwise_filterMap_imp _ ?_ (faissSearch_sorted _ _ _)
  intro a b x y hR hfa hfb
  rcases Option.map_eq_some'.mp hfa with ⟨ca, hca, hxa⟩
  rcases Option.map_eq_some'.mp hfb with ⟨cb, hcb, hxb⟩
  subst hxa; subst hxb
  simp only
  rcases hR with h | ⟨h, _⟩
  · exact le_of_lt h
  · exact le_of_eq h.symm

theorem search_fst_of_fresh (encode : String → Vec) (s : VectorStore) (q : String)
    (k : Nat)
    (hfresh : (s.cache.get (q, k)).1 = none ∨ (s.cache.get (q, k)).1 = some []) :
    (VectorStore.search encode s q k).1 = []
    ∨ (VectorStore.search encode s q k).1 = VectorStore.computeResults encode s q k := by
  by_cases hg : s.indexBuilt = false ∨ s.chunks = []
  · exact Or.inl (by rw [search_eq_of_guard encode s q k hg])
  · exact Or.inr (by rw [search_eq_of_miss encode s q k hg hfresh])

/-! ## Claim C3 -/

/-- C3 (amended): a search that is not answered from the cache returns at
most `min k (number of indexed chunks)` results, sorted by non-increasing
similarity score, and the underlying exact scan orders equal scores by
original insertion order; a cache-served search instead returns a
previously computed list, which — because rebuilds do not clear the cache —
can predate the current build and exceed `min k (current chunk count)`. -/
theorem claim_C3_search_ordering (encode : String → Vec) (s : VectorStore)
    (q : String) (k : Nat)
    (hfresh : (s.cache.get (q, k)).1 = none ∨ (s.cache.get (q, k)).1 = some []) :
    (VectorStore.search encode s q k).1.length ≤ min k s.chunks.length
    ∧ (VectorStore.search encode s q k).1.Pairwise (fun a b => b.2 ≤ a.2)
    ∧ (faissSearch s.embeddings (encode q) (min k s.chunks.length)).Pairwise
        (fun a b => b.2 < a.2 ∨ (a.2 = b.2 ∧ a.1 < b.1)) := by
  rcases search_fst_of_fresh encode s q k hfresh with h | h
  · rw [h]
    exact ⟨Nat.zero_le _, List.Pairwise.nil, faissSearch_sorted _ _ _⟩
  · rw [h]
    exact ⟨computeResults_length_le encode s q k, computeResults_sorted encode s q k,
      faissSearch_sorted _ _ _⟩

/-- C3 counterexample: build over two chunks, search with `k = 2` (caching
two results), rebuild over a single chunk, and search again: the cached
list of length 2 is returned even though `min k (number of indexed
chunks)` is now 1, so the claim's bound fails on the code as stated. -/
theorem claim_C3_counterexample :
    ((VectorStore.search encodeConst storeC "q" 2).1).length = 2
    ∧ storeC.chunks.length = 1
    ∧ ¬ (((VectorStore.search encodeConst storeC "q" 2).1).length
          ≤ min 2 storeC.chunks.length) := by decide

/-- C3 witness: the amended theorem applied to the fresh store built over
`[chunkA]`, whose cache is empty. -/
theorem claim_C3_witness :
    ((VectorStore.search encodeConst storeA "q" 1).1).length
      ≤ min 1 storeA.chunks.length :=
  (claim_C3_search_ordering encodeConst storeA "q" 1 (Or.inl (by decide))).1

/-! ## Claims C4, C8, C10 -/

/-- C4: on a freshly constructed, never-built store, a search with any
query and any `k > 0` returns the empty list (no failure), and context
assembly over the resulting empty result list returns the empty context
string and an empty citation list. -/
theorem claim_C4_unbuilt_search (encode : String → Vec) (q : String) (k B : Nat)
    (hk : 0 < k) :
    (VectorStore.search encode VectorStore.init q k).1 = []
    ∧ (VectorStore.get_context_for_query encode VectorStore.init q k B).1 = ("", []) := by
  have h := search_eq_of_guard encode VectorStore.init q k (Or.inl rfl)
  exact ⟨by rw [h], by simp [VectorStore.get_context_for_query, h]⟩

/-- C4 witness: the theorem at a concrete query, `k = 1`, budget 0. -/
theorem claim_C4_witness :
    0 < 1 ∧ (VectorStore.search encodeConst VectorStore.init "x" 1).1 = [] :=
  ⟨by decide, (claim_C4_unbuilt_search encodeConst "x" 1 0 (by decide)).1⟩

/-- C8: building from an empty chunk list leaves the store with zero
chunks — the benign empty state the claim's parenthetical allows (no
`EmptyCollectionError` class exists anywhere in the code) — and after
such a call every search returns empty results and context assembly
returns the empty context with no citations rather than raising. -/
theorem claim_C8_empty_build (encode encode2 : String → Vec) (s : VectorStore)
    (q : String) (k B : Nat) :
    (VectorStore.create_from_chunks encode s []).chunks = []
    ∧ (VectorStore.search encode2 (VectorStore.create_from_chunks encode s []) q k).1 = []
    ∧ (VectorStore.get_context_for_query encode2
        (VectorStore.create_from_chunks encode s []) q k B).1 = ("", []) := by
  have hc : (VectorStore.create_from_chunks encode s []).chunks = [] := rfl
  have h := search_eq_of_guard encode2 (VectorStore.create_from_chunks encode s [])
    q k (Or.inr hc)
  exact ⟨hc, by rw [h], by simp [VectorStore.get_context_for_query, h]⟩

/-- C10: `create_from_chunks` transforms the caller's chunk list exactly by
the in-place document fix-up: every chunk lacking a `'document'` key has
one inserted, copied from its `'doc'` key when present and `"Unknown"`
otherwise, while the text, page, doc, span and token fields of every chunk
are left unchanged (a chunk that already has a `'document'` key is
untouched entirely). -/
theorem claim_C10_document_fixup (encode : String → Vec) (s : VectorStore)
    (cs : List Chunk) :
    (VectorStore.create_from_chunks encode s cs).chunks = cs.map ensureDocument
    ∧ (∀ c : Chunk, c.document ≠ none → ensureDocument c = c)
    ∧ ∀ c : Chunk,
        (ensureDocument c).text = c.text
        ∧ (ensureDocument c).page = c.page
        ∧ (ensureDocument c).doc = c.doc
        ∧ (ensureDocument c).start_pos = c.start_pos
        ∧ (ensureDocument c).end_pos = c.end_pos
        ∧ (ensureDocument c).tokens = c.tokens
        ∧ (ensureDocument c).document = some (c.document.getD (c.doc.getD "Unknown")) := by
  refine ⟨rfl, ?_, ?_⟩
  · intro c hc
    cases hd : c.document with
    | none => exact absurd hd hc
    | some d => simp [ensureDocument, hd]
  · intro c
    cases hd : c.document <;> simp [ensureDocument, hd]

/-! ## Context assembly lemmas -/

theorem pyTake_length (s : String) (n : Nat) :
    (pyTake s n).length = min n s.length := by
  show (s.data.take n).length = min n s.length
  rw [List.length_take]
  rfl

theorem addTxtOf_eq_full (c : Chunk) (B curLen : Nat)
    (h : ¬ B < curLen + c.text.length) : addTxtOf c B curLen = c.text := by
  simp [addTxtOf, h]

theorem addTxtOf_length_crossing (c : Chunk) (B curLen : Nat) (h1 : curLen < B)
    (h2 : B < curLen + c.text.length) :
    curLen + (addTxtOf c B curLen).length = B
    ∨ curLen + (addTxtOf c B curLen).length = B + 3 := by
  have h0 : (0 : Int) ≤ (B : Int) - (curLen : Int) := by omega
  have hmax : max 0 ((B : Int) - (curLen : Int)) = (B : Int) - (curLen : Int) :=
    max_eq_right h0
  have htn : ((B : Int) - (curLen : Int)).toNat = B - curLen := by omega
  by_cases h3 : 3 < (B : Int) - (curLen : Int)
  · right
    simp only [addTxtOf, if_pos h2, if_pos h3, hmax, htn, String.length_append,
      pyTake_length]
    have hm : min (B - curLen) c.text.length = B - curLen := by omega
    rw [hm]
    have h33 : ("..." : String).length = 3 := rfl
    rw [h33]
    omega
  · left
    simp only [addTxtOf, if_pos h2, if_neg h3, hmax, htn, String.length_append,
      pyTake_length]
    have hm : min (B - curLen) c.text.length = B - curLen := by omega
    rw [hm]
    have h33 : ("" : String).length = 0 := rfl
    rw [h33]
    omega

theorem addTxtOf_length_zero_of_exhausted (c : Chunk) (B curLen : Nat)
    (h1 : B ≤ curLen) (h2 : B < curLen + c.text.length) :
    (addTxtOf c B curLen).length = 0 := by
  have h0 : max 0 ((B : Int) - (curLen : Int)) = 0 := max_eq_left (by omega)
  have h3 : ¬ (3 < (B : Int) - (curLen : Int)) := by omega
  simp [addTxtOf, if_pos h2, h0, h3, pyTake_length]

theorem assembleContext_final_le (l : List (Chunk × Score)) (B curLen : Nat)
    (h : curLen < B) : (assembleContext l B curLen).2.2 ≤ B + 3 := by
  induction l generalizing curLen with
  | nil => simp only [assembleContext]; omega
  | cons p rest ih =>
    rcases p with ⟨c, score⟩
    simp only [assembleContext]
    by_cases h2 : B < curLen + c.text.length
    · rcases addTxtOf_length_crossing c B curLen h h2 with hb | hb
      · rw [if_pos (by omega : B ≤ curLen + (addTxtOf c B curLen).length)]
        simp only
        omega
      · rw [if_pos (by omega : B ≤ curLen + (addTxtOf c B curLen).length)]
        simp only
        omega
    · have he := addTxtOf_eq_full c B curLen h2
      rw [he]
      by_cases h3 : B ≤ curLen + c.text.length
      · rw [if_pos h3]
        simp only
        omega
      · rw [if_neg h3]
        simp only
        exact ih (curLen + c.text.length) (by omega)

theorem assembleContext_citations (l : List (Chunk × Score)) (B curLen : Nat) :
    (assembleContext l B curLen).2.1
      = (l.take (assembleContext l B curLen).1.length).map
          (fun p => citationOf p.1 p.2)
    ∧ (assembleContext l B curLen).1.length ≤ l.length
    ∧ (assembleContext l B curLen).1.length
        = (assembleContext l B curLen).2.1.length := by
  induction l generalizing curLen with
  | nil => simp [assembleContext]
  | cons p rest ih =>
    rcases p with ⟨c, score⟩
    simp only [assembleContext]
    split
    · simp
    · rcases ih (curLen + (addTxtOf c B curLen).length) with ⟨ih1, ih2, ih3⟩
      refine ⟨?_, ?_, ?_⟩
      · simp only [List.length_cons, List.take_succ_cons, List.map_cons]
        rw [← ih1]
      · simp only [List.length_cons]
        omega
      · simp only [List.length_cons]
        omega

theorem assembleContext_take (l : List (Chunk × Score)) (B curLen : Nat) :
    assembleContext (l.take (assembleContext l B curLen).1.length) B curLen
      = assembleContext l B curLen := by
  induction l generalizing curLen with
  | nil => simp [assembleContext]
  | cons p rest ih =>
    rcases p with ⟨c, score⟩
    by_cases hstop : B ≤ curLen + (addTxtOf c B curLen).length
    · have h1 : (assembleContext ((c, score) :: rest) B curLen).1.length = 1 := by
        simp [assembleContext, if_pos hstop]
      rw [h1]
      simp only [List.take_succ_cons, List.take_zero]
      simp [assembleContext, if_pos hstop]
    · have h1 : (assembleContext ((c, score) :: rest) B curLen).1.length
          = (assembleContext rest B (curLen + (addTxtOf c B curLen).length)).1.length
            + 1 := by
        simp [assembleContext, if_neg hstop]
      rw [h1]
      rw [List.take_succ_cons]
      simp only [assembleContext, if_neg hstop]
      rw [ih (curLen + (addTxtOf c B curLen).length)]

theorem assembleContext_untruncated (l : List (Chunk × Score)) (B curLen : Nat) :
    ∀ i, i + 1 < (assembleContext l B curLen).1.length →
      (assembleContext l B curLen).1.get? i
        = (l.get? i).map (fun p => contextLabel p.1 ++ p.1.text) := by
  induction l generalizing curLen with
  | nil => intro i hi; simp [assembleContext] at hi
  | cons p rest ih =>
    rcases p with ⟨c, score⟩
    intro i hi
    by_cases hstop : B ≤ curLen + (addTxtOf c B curLen).length
    · have h1 : (assembleContext ((c, score) :: rest) B curLen).1.length = 1 := by
        simp [assembleContext, if_pos hstop]
      omega
    · have hfull : addTxtOf c B curLen = c.text := by
        by_cases h2 : B < curLen + c.text.length
        · exfalso
          by_cases hcl : curLen < B
          · rcases addTxtOf_length_crossing c B curLen hcl h2 with hb | hb <;> omega
          · have := addTxtOf_length_zero_of_exhausted c B curLen (by omega) h2
            omega
        · exact addTxtOf_eq_full c B curLen h2
      simp only [assembleContext, if_neg hstop] at hi ⊢
      cases i with
      | zero =>
        simp only [List.get?_cons_zero, Option.map_some']
        rw [hfull]
      | succ j =>
        simp only [List.get?_cons_succ]
        refine ih (curLen + (addTxtOf c B curLen).length) j ?_
        simp only [List.length_cons] at hi
        omega

/-! ## Claims C1 and C9 -/

/-- C1 (amended): the budget bounds only the accumulated chunk-text
portion: with the last crossing chunk cut to the remaining space (the
`"..."` marker appended only when more than 3 characters of budget
remain), the final accounted length `cur_len` never exceeds `B + 3`; every
context part except possibly the last carries its chunk text untruncated;
and results past the point where the budget is exhausted contribute
nothing.  The returned context string additionally contains one
`[document - Page N]` label per contributing chunk and the `"\n\n---\n\n"`
separators, which are not counted against the budget, so its total length
can exceed `B` plus the marker length (see the counterexample). -/
theorem claim_C1_budget (encode : String → Vec) (s : VectorStore) (q : String)
    (k B : Nat) (hB : 1 ≤ B) :
    (assembleContext (VectorStore.search encode s q k).1 B 0).2.2 ≤ B + 3
    ∧ assembleContext (((VectorStore.search encode s q k).1).take
        (assembleContext (VectorStore.search encode s q k).1 B 0).1.length) B 0
      = assembleContext (VectorStore.search encode s q k).1 B 0
    ∧ (∀ i, i + 1 < (assembleContext (VectorStore.search encode s q k).1 B 0).1.length →
        (assembleContext (VectorStore.search encode s q k).1 B 0).1.get? i
          = (((VectorStore.search encode s q k).1).get? i).map
              (fun p => contextLabel p.1 ++ p.1.text))
    ∧ ((VectorStore.search encode s q k).1 ≠ [] →
        (VectorStore.get_context_for_query encode s q k B).1.1
          = String.intercalate "\n\n---\n\n"
              (assembleContext (VectorStore.search encode s q k).1 B 0).1) := by
  refine ⟨assembleContext_final_le _ B 0 hB, assembleContext_take _ B 0,
    assembleContext_untruncated _ B 0, ?_⟩
  intro h
  simp [VectorStore.get_context_for_query, h]

/-- C1 counterexample: with budget 5 and a single 8-character chunk, the
returned context string is the label plus the truncated text — 27
characters, exceeding the claimed bound of the budget plus one `"..."`
marker (8). -/
theorem claim_C1_counterexample :
    (VectorStore.get_context_for_query encodeConst storeLong "q" 1 5).1.1
      = "[Unknown - Page ?]\nabcde..."
    ∧ ¬ ((VectorStore.get_context_for_query encodeConst storeLong "q" 1 5).1.1.length
          ≤ 5 + ("..." : String).length) := by decide

/-- C1 witness: the amended theorem at the concrete store over `[chunkA]`
with budget 5. -/
theorem claim_C1_witness :
    1 ≤ 5
    ∧ (assembleContext (VectorStore.search encodeConst storeA "q" 1).1 5 0).2.2
        ≤ 5 + 3 :=
  ⟨by decide, (claim_C1_budget encodeConst storeA "q" 1 5 (by decide)).1⟩

/-- C9: `get_context_for_query` emits exactly one citation per consumed
result — the chunks that contribute their labelled part to the context,
including a truncated last chunk — in order; each citation carries the
chunk's document (defaulting to `"Unknown"`), its page, its original
untruncated text capped at 800 characters, and the similarity score
unchanged; results past the stopping point get no citation. -/
theorem claim_C9_citations (encode : String → Vec) (s : VectorStore) (q : String)
    (k B : Nat) :
    (VectorStore.get_context_for_query encode s q k B).1.2
      = (((VectorStore.search encode s q k).1).take
          (assembleContext (VectorStore.search encode s q k).1 B 0).1.length).map
          (fun p => citationOf p.1 p.2)
    ∧ (assembleContext (VectorStore.search encode s q k).1 B 0).1.length
        = (VectorStore.get_context_for_query encode s q k B).1.2.length
    ∧ (assembleContext (VectorStore.search encode s q k).1 B 0).1.length
        ≤ ((VectorStore.search encode s q k).1).length := by
  rcases assembleContext_citations ((VectorStore.search encode s q k).1) B 0
    with ⟨h1, h2, h3⟩
  by_cases h : (VectorStore.search encode s q k).1 = []
  · refine ⟨?_, ?_, ?_⟩ <;>
      simp [VectorStore.get_context_for_query, h, assembleContext]
  · simp only [VectorStore.get_context_for_query, if_neg h]
    exact ⟨h1, h3, h2⟩

/-! ## Claim C5 -/

/-- C5: the code lacks the claimed fallback — the snap guard compares the
snapped chunk length against `int(0.4 * chunk_size)`, never against the
overlap.  At `chunk_size = 10`, `overlap = 8` on `loopText`, the iteration
from `start = 0` snaps `end` to 8 (8 > 4), emits a chunk, and sets the next
start to `8 - 8 = 0`: no forward progress, so the source loop emits the
same chunk forever and never terminates, contradicting the claim. -/
theorem claim_C5_no_progress :
    chunkIterEnd loopText.data 10 0 = 8
    ∧ chunkNextStart loopText.data 10 8 0 = some 0
    ∧ emitChunk loopText.data [] 0 (chunkIterEnd loopText.data 10 0) ≠ none := by
  decide

/-! ## Claim C7 -/

theorem chunkSpans_head_start (cs : List Char) (S O : Nat) :
    ∀ (fuel : Nat) (start : Int) (x : Int × Int),
      (chunkSpans cs S O fuel start).get? 0 = some x → x.1 = start := by
  intro fuel
  cases fuel with
  | zero => intro start x hx; exact Option.noConfusion hx
  | succ n =>
    intro start x hx
    by_cases h : start < (cs.length : Int)
    · simp only [chunkSpans, if_pos h, List.get?_cons_zero] at hx
      cases hx
      rfl
    · simp only [chunkSpans, if_neg h] at hx
      exact Option.noConfusion hx

theorem chunkSpans_consec (cs : List Char) (S O : Nat) :
    ∀ (fuel : Nat) (start : Int) (i : Nat) (x y : Int × Int),
      (chunkSpans cs S O fuel start).get? i = some x →
      (chunkSpans cs S O fuel start).get? (i + 1) = some y →
      y.1 = x.2 - O := by
  intro fuel
  induction fuel with
  | zero => intro start i x y hx hy; exact Option.noConfusion hx
  | succ n ih =>
    intro start i x y hx hy
    by_cases h : start < (cs.length : Int)
    · simp only [chunkSpans, if_pos h] at hx hy
      cases i with
      | zero =>
        simp only [List.get?_cons_zero] at hx
        cases hx
        simp only [List.get?_cons_succ] at hy
        by_cases he : (cs.length : Int) ≤ chunkIterEnd cs S start
        · rw [if_pos he] at hy
          exact Option.noConfusion hy
        · rw [if_neg he] at hy
          exact chunkSpans_head_start cs S O n (chunkIterEnd cs S start - O) y hy
      | succ j =>
        simp only [List.get?_cons_succ] at hx hy
        by_cases he : (cs.length : Int) ≤ chunkIterEnd cs S start
        · rw [if_pos he] at hx
          exact Option.noConfusion hx
        · rw [if_neg he] at hx hy
          exact ih (chunkIterEnd cs S start - O) j x y hx hy
    · simp only [chunkSpans, if_neg h] at hx
      exact Option.noConfusion hx

theorem chunkTextAux_eq_filterMap (cs : List Char) (pm : PageMap) (S O : Nat) :
    ∀ (fuel : Nat) (start : Int),
      chunkTextAux cs pm S O fuel start
        = (chunkSpans cs S O fuel start).filterMap
            (fun sp => emitChunk cs pm sp.1 sp.2) := by
  intro fuel
  induction fuel with
  | zero => intro start; rfl
  | succ n ih =>
    intro start
    by_cases h : start < (cs.length : Int)
    · simp only [chunkTextAux, chunkSpans, if_pos h, List.filterMap_cons]
      by_cases he : (cs.length : Int) ≤ chunkIterEnd cs S start
      · rw [if_pos he, if_pos he]
        cases hm : emitChunk cs pm start (chunkIterEnd cs S start) <;> simp [hm]
      · rw [if_neg he, if_neg he, ih]
        cases hm : emitChunk cs pm start (chunkIterEnd cs S start) <;> simp [hm]
    · simp only [chunkTextAux, chunkSpans, if_neg h, List.filterMap_nil]

/-- C7 (amended): the emitted chunks are exactly the loop's candidate spans
whose stripped text is non-empty, and each iteration's span starts exactly
`O` characters before the previous iteration's span end — so two chunks
emitted in consecutive iterations overlap by exactly `O` characters of
flattened-text span, while a dropped pure-whitespace candidate between two
emitted chunks lets their spans overlap by less than `O` or not at all
(see the counterexample). -/
theorem claim_C7_overlap (cs : List Char) (pm : PageMap) (S O fuel : Nat)
    (start : Int) :
    chunkTextAux cs pm S O fuel start
      = (chunkSpans cs S O fuel start).filterMap
          (fun sp => emitChunk cs pm sp.1 sp.2)
    ∧ ∀ (i : Nat) (x y : Int × Int),
        (chunkSpans cs S O fuel start).get? i = some x →
        (chunkSpans cs S O fuel start).get? (i + 1) = some y →
        y.1 = x.2 - O :=
  ⟨chunkTextAux_eq_filterMap cs pm S O fuel start,
   fun i x y hx hy => chunkSpans_consec cs S O fuel start i x y hx hy⟩

/-- C7 counterexample: chunking `wsText` with `chunk_size = 5` and
`overlap = 2` emits chunks with spans `(0,5), (3,8), (9,14), (12,17)`; the
pure-whitespace candidate span `(6,11)` between the second and third chunk
was dropped, so the consecutive emitted pair `(3,8)`, `(9,14)` — whose
first member is not the final chunk — has span overlap `0`, not the exact
`O = 2` the claim asserts. -/
theorem claim_C7_counterexample :
    (chunk_text wsText [] 5 2).map
        (fun c => (c.start_pos.getD 99, c.end_pos.getD 99))
      = [(0, 5), (3, 8), (9, 14), (12, 17)]
    ∧ spanOverlap ((chunk_text wsText [] 5 2).getD 1 {})
        ((chunk_text wsText [] 5 2).getD 2 {}) = 0
    ∧ ((0 : Int) = 2 → False) := by decide

/-- C7 witness: the amended theorem at the concrete `wsText` run, giving
the exact-`O` relation between the first two candidate spans. -/
theorem claim_C7_witness :
    (chunkSpans wsText.data 5 2 18 0).get? 0 = some (0, 5)
    ∧ (chunkSpans wsText.data 5 2 18 0).get? 1 = some (3, 8)
    ∧ ((3, 8) : Int × Int).1 = ((0, 5) : Int × Int).2 - (2 : Nat) :=
  ⟨by decide, by decide,
   (claim_C7_overlap wsText.data [] 5 2 18 0).2 0 (0, 5) (3, 8)
     (by decide) (by decide)⟩

/-! ## Claim C6 -/

theorem pmLookup_append_right (d e : PageMap) (key : Int)
    (hd : pmLookup d key = none) : pmLookup (d ++ e) key = pmLookup e key := by
  induction d with
  | nil => rfl
  | cons x xs ih =>
    by_cases h : (x.1 : Int) = key
    · simp only [pmLookup, if_pos h] at hd
      exact Option.noConfusion hd
    · simp only [pmLookup, if_neg h] at hd
      simpa only [List.cons_append, pmLookup, if_neg h] using ih hd

theorem pmLookup_append_none (d e : PageMap) (key : Int)
    (hd : pmLookup d key = none) (he2 : pmLookup e key = none) :
    pmLookup (d ++ e) key = none := by
  rw [pmLookup_append_right d e key hd]
  exact he2

theorem pmLookup_append_left (d e : PageMap) (key : Int) (v : Nat)
    (hd : pmLookup d key = some v) : pmLookup (d ++ e) key = some v := by
  induction d with
  | nil => exact Option.noConfusion hd
  | cons x xs ih =>
    by_cases h : (x.1 : Int) = key
    · simp only [pmLookup, if_pos h] at hd ⊢
      exact hd
    · simp only [pmLookup, if_neg h] at hd
      simpa only [List.cons_append, pmLookup, if_neg h] using ih hd

theorem pmLookup_none_of_forall (d : PageMap) (key : Int)
    (h : ∀ e ∈ d, (e.1 : Int) ≠ key) : pmLookup d key = none := by
  induction d with
  | nil => rfl
  | cons x xs ih =>
    have hx := h x (List.mem_cons_self x xs)
    simp only [pmLookup, if_neg hx]
    exact ih fun e he => h e (List.mem_cons_of_mem x he)

theorem rangeEntries_lookup_some (pos pn : Nat) : ∀ (L : Nat) (i : Nat), i < L →
    pmLookup ((List.range L).map fun j => (pos + j, pn)) ((pos : Int) + i)
      = some pn := by
  intro L
  induction L with
  | zero => intro i hi; omega
  | succ L ih =>
    intro i hi
    rw [List.range_succ, List.map_append]
    by_cases h : i < L
    · exact pmLookup_append_left _ _ _ _ (ih i h)
    · have hiL : i = L := by omega
      have hleft : pmLookup ((List.range L).map fun j => (pos + j, pn))
          ((pos : Int) + i) = none := by
        refine pmLookup_none_of_forall _ _ ?_
        intro e he
        rcases List.mem_map.mp he with ⟨j, hj, rfl⟩
        have hjL := List.mem_range.mp hj
        simp only
        intro hc
        omega
      rw [pmLookup_append_right _ _ _ hleft]
      simp only [List.map_cons, List.map_nil, pmLookup]
      rw [if_pos (by push_cast; omega)]

theorem extractAux_len (p : String) (ps : List String) (pos pnum : Nat) :
    (extractAux (p :: ps) pos pnum).1.length
      = (String.mk (stripChars p.data)).length + 2
        + (extractAux ps (pos + (String.mk (stripChars p.data)).length + 2)
            (pnum + 1)).1.length := by
  simp only [extractAux, String.length_append]
  rfl

theorem extractAux_keys (ps : List String) : ∀ (pos pnum : Nat),
    (∀ e ∈ (extractAux ps pos pnum).2,
      pos ≤ e.1 ∧ e.1 + 2 ≤ pos + (extractAux ps pos pnum).1.length)
    ∧ (ps ≠ [] →
        pmLookup (extractAux ps pos pnum).2
          ((pos : Int) + (extractAux ps pos pnum).1.length - 2) = none
        ∧ pmLookup (extractAux ps pos pnum).2
          ((pos : Int) + (extractAux ps pos pnum).1.length - 1) = none) := by
  induction ps with
  | nil =>
    intro pos pnum
    exact ⟨by intro e he; exact absurd he (by simp [extractAux]), by simp⟩
  | cons p rest ih =>
    intro pos pnum
    have hlen := extractAux_len p rest pos pnum
    have hmap : (extractAux (p :: rest) pos pnum).2
        = ((List.range (String.mk (stripChars p.data)).length).map
            fun i => (pos + i, pnum))
          ++ (extractAux rest
              (pos + (String.mk (stripChars p.data)).length + 2) (pnum + 1)).2 := by
      simp only [extractAux]
    constructor
    · intro e he
      rw [hmap] at he
      rcases List.mem_append.mp he with hL | hR
      · rcases List.mem_map.mp hL with ⟨j, hj, rfl⟩
        have hjL := List.mem_range.mp hj
        constructor
        · exact Nat.le_add_right pos j
        · rw [hlen]; omega
      · have := (ih (pos + (String.mk (stripChars p.data)).length + 2) (pnum + 1)).1 e hR
        constructor
        · omega
        · rw [hlen]; omega
    · intro _
      have hne1 : ∀ e ∈ ((List.range (String.mk (stripChars p.data)).length).map
          fun i => (pos + i, pnum)),
          (e.1 : Int) ≠ (pos : Int) + (extractAux (p :: rest) pos pnum).1.length - 2 := by
        intro e he
        rcases List.mem_map.mp he with ⟨j, hj, rfl⟩
        have hjL := List.mem_range.mp hj
        rw [hlen]
        simp only
        intro hc
        omega
      have hne2 : ∀ e ∈ ((List.range (String.mk (stripChars p.data)).length).map
          fun i => (pos + i, pnum)),
          (e.1 : Int) ≠ (pos : Int) + (extractAux (p :: rest) pos pnum).1.length - 1 := by
        intro e he
        rcases List.mem_map.mp he with ⟨j, hj, rfl⟩
        have hjL := List.mem_range.mp hj
        rw [hlen]
        simp only
        intro hc
        omega
      by_cases hrn : rest = []
      · subst hrn
        constructor
        · rw [hmap]
          exact pmLookup_append_none _ _ _
            (pmLookup_none_of_forall _ _ hne1) rfl
        · rw [hmap]
          exact pmLookup_append_none _ _ _
            (pmLookup_none_of_forall _ _ hne2) rfl
      · have hihB := (ih (pos + (String.mk (stripChars p.data)).length + 2)
          (pnum + 1)).2 hrn
        constructor
        · rw [hmap]
          refine pmLookup_append_none _ _ _
            (pmLookup_none_of_forall _ _ hne1) ?_
          have hk : (pos : Int) + (extractAux (p :: rest) pos pnum).1.length - 2
              = ((pos + (String.mk (stripChars p.data)).length + 2 : Nat) : Int)
                + (extractAux rest
                    (pos + (String.mk (stripChars p.data)).length + 2)
                    (pnum + 1)).1.length - 2 := by
            rw [hlen]; push_cast; ring
          rw [hk]
          exact hihB.1
        · rw [hmap]
          refine pmLookup_append_none _ _ _
            (pmLookup_none_of_forall _ _ hne2) ?_
          have hk : (pos : Int) + (extractAux (p :: rest) pos pnum).1.length - 1
              = ((pos + (String.mk (stripChars p.data)).length + 2 : Nat) : Int)
                + (extractAux rest
                    (pos + (String.mk (stripChars p.data)).length + 2)
                    (pnum + 1)).1.length - 1 := by
            rw [hlen]; push_cast; ring
          rw [hk]
          exact hihB.2

theorem extractAux_lookup (ps : List String) : ∀ (pos pnum : Nat) (key : Int),
    pmLookup (extractAux ps pos pnum).2 key = pageOfOffset ps pos pnum key := by
  induction ps with
  | nil => intro pos pnum key; rfl
  | cons p rest ih =>
    intro pos pnum key
    have hmap : (extractAux (p :: rest) pos pnum).2
        = ((List.range (String.mk (stripChars p.data)).length).map
            fun i => (pos + i, pnum))
          ++ (extractAux rest
              (pos + (String.mk (stripChars p.data)).length + 2) (pnum + 1)).2 := by
      simp only [extractAux]
    rw [hmap]
    by_cases hin : (pos : Int) ≤ key
        ∧ key < (pos : Int) + (String.mk (stripChars p.data)).length
    · obtain ⟨h1, h2⟩ := hin
      obtain ⟨i, hiL, hkey⟩ :
          ∃ i : Nat, i < (String.mk (stripChars p.data)).length
            ∧ key = (pos : Int) + i :=
        ⟨(key - pos).toNat, by omega, by omega⟩
      rw [hkey,
        pmLookup_append_left _ _ _ _ (rangeEntries_lookup_some pos pnum _ i hiL)]
      simp only [pageOfOffset]
      rw [if_pos ⟨by omega, by omega⟩]
    · have hnone : pmLookup ((List.range (String.mk (stripChars p.data)).length).map
          fun i => (pos + i, pnum)) key = none := by
        refine pmLookup_none_of_forall _ _ ?_
        intro e he
        rcases List.mem_map.mp he with ⟨j, hj, rfl⟩
        have hjL := List.mem_range.mp hj
        simp only
        intro hc
        exact hin ⟨by omega, by omega⟩
      rw [pmLookup_append_right _ _ _ hnone,
        ih (pos + (String.mk (stripChars p.data)).length + 2) (pnum + 1) key]
      simp only [pageOfOffset]
      rw [if_neg hin]

/-- C6 (amended): the page map built by `extract_text_from_pdf` is not
total over the flattened text — it covers exactly the offsets of page
characters: its lookup agrees everywhere with `pageOfOffset`, which maps
an offset iff it falls among some (stripped) page's character offsets and
then to that page's 1-based number, so every inter-page separator offset
(inner ones included) is absent rather than assigned to the nearest
preceding page; every mapped offset lies at least two characters before
the end of the flattened text; for a non-empty document the final two
offsets are always unmapped; and downstream lookups read missing offsets
with the dict default 1. -/
theorem claim_C6_page_map (pages : List String) (pos pnum : Nat) :
    (∀ key : Int,
      pmLookup (extractAux pages pos pnum).2 key = pageOfOffset pages pos pnum key)
    ∧ (∀ e ∈ (extractAux pages pos pnum).2,
      pos ≤ e.1 ∧ e.1 + 2 ≤ pos + (extractAux pages pos pnum).1.length)
    ∧ (pages ≠ [] →
        pmLookup (extractAux pages pos pnum).2
          ((pos : Int) + (extractAux pages pos pnum).1.length - 2) = none
        ∧ pmLookup (extractAux pages pos pnum).2
          ((pos : Int) + (extractAux pages pos pnum).1.length - 1) = none)
    ∧ ∀ key : Int, pmLookup (extractAux pages pos pnum).2 key = none →
        pmGet (extractAux pages pos pnum).2 key 1 = 1 := by
  refine ⟨extractAux_lookup pages pos pnum, (extractAux_keys pages pos pnum).1,
    (extractAux_keys pages pos pnum).2, ?_⟩
  intro key h
  unfold pmGet
  rw [h]
  rfl

/-- C6 counterexample: for pages `["A", "B"]` the flattened text is
`"A\n\nB\n\n"` (length 6) and the page map holds only `{0 ↦ 1, 3 ↦ 2}`:
the inter-page separator offsets 1 and 2 and the trailing separator
offset 4 all lie inside the flattened text but have no page assigned —
in particular none is assigned to the nearest preceding page — and the
dict default used by `chunk_text` reads offset 4 as page 1, not the
preceding page 2 (offset 3, a page character, maps to its page 2). -/
theorem claim_C6_counterexample :
    (extract_text_from_pdf ["A", "B"]).1.length = 6
    ∧ pmLookup (extract_text_from_pdf ["A", "B"]).2 1 = none
    ∧ pmLookup (extract_text_from_pdf ["A", "B"]).2 2 = none
    ∧ pmLookup (extract_text_from_pdf ["A", "B"]).2 4 = none
    ∧ pmLookup (extract_text_from_pdf ["A", "B"]).2 3 = some 2
    ∧ pmGet (extract_text_from_pdf ["A", "B"]).2 4 1 = 1 := by decide

/-- C6 witness: the amended theorem at the one-page document `["A"]` — the
final separator offset is unmapped. -/
theorem claim_C6_witness :
    pmLookup (extractAux ["A"] 0 1).2
      ((0 : Int) + (extractAux ["A"] 0 1).1.length - 2) = none :=
  ((claim_C6_page_map ["A"] 0 1).2.2.1 (by simp)).1
